import Mathlib

/-!
Shallow embedding of the pdraim real-time SSE event-distribution subsystem:
the per-room catch-up message queue (`MessageQueue`), the process-wide
event emitter (`SSEEventEmitter`), the server-side connection registry
(`SSEManager`), the heartbeat-acknowledgment endpoint, and the client-side
reconnect backoff computation (`SSEClient.calculateBackoff`).

Modelling conventions:
* `crypto.randomUUID()` is modelled by a single monotone counter threaded
  through the state: each draw returns the current counter value and bumps
  it, so every drawn id is globally fresh (never equal to any id drawn
  before) — the property UUIDs are relied on for.
* `Date.now()` is passed in explicitly as a `Nat` argument wherever the
  source calls it.
* JavaScript `Map`s are association lists with unique keys; `Map.delete`
  is modelled at lookup level by dropping every entry with the key
  (a `Map` never holds a duplicate key, so the two coincide).
* JavaScript `Set`s are insertion-ordered duplicate-free lists;
  `Set.add` appends only when the element is absent.
* Event payloads are opaque to the subsystem; they are modelled as `String`.
-/

namespace PDRAIM

/-- Association-list lookup: first entry with the given key, as a JS `Map.get`. -/
def alGet {κ α : Type} [DecidableEq κ] : List (κ × α) → κ → Option α
  | [], _ => none
  | (k, v) :: rest, key => if k = key then some v else alGet rest key

/-- Association-list update: replace the first entry with the key, else append,
as a JS `Map.set`. -/
def alSet {κ α : Type} [DecidableEq κ] : List (κ × α) → κ → α → List (κ × α)
  | [], key, v => [(key, v)]
  | (k, w) :: rest, key, v =>
      if k = key then (key, v) :: rest else (k, w) :: alSet rest key v

/-- Association-list delete: drop entries with the key, as a JS `Map.delete`
(a `Map` holds at most one entry per key). -/
def alRemove {κ α : Type} [DecidableEq κ] (m : List (κ × α)) (key : κ) :
    List (κ × α) :=
  m.filter (fun p => p.1 ≠ key)

/-- JS `arr.slice(-n)`: the last `n` elements for `n ≥ 1`; for `n = 0`,
`slice(-0)` is `slice(0)`, the whole array. -/
def jsSliceLast {α : Type} (n : Nat) (l : List α) : List α :=
  if n = 0 then l else l.drop (l.length - n)

/-! ## MessageQueue (catch-up buffer) -/

/-- Entry of the per-room catch-up log (source interface `QueuedMessage`);
`id` is a fresh-counter value standing for the `crypto.randomUUID()` string. -/
structure QueuedMessage where
  id : Nat
  event : String
  data : String
  timestamp : Nat
  roomId : String
  deriving Repr, DecidableEq

/-- Configuration of a `MessageQueue` instance (constructor arguments `ttl`,
`maxSize`; defaults `SSE_CONFIG.MESSAGE_QUEUE_TTL = 300000`,
`SSE_CONFIG.MESSAGE_QUEUE_MAX_SIZE = 1000`). -/
structure MQConfig where
  ttl : Nat
  maxSize : Nat
  deriving Repr, DecidableEq

/-- The configured defaults from `SSE_CONFIG`. -/
def defaultMQConfig : MQConfig := { ttl := 300000, maxSize := 1000 }

/-- State of `MessageQueue`: the per-room queues map plus the global
fresh-id counter standing for `crypto.randomUUID`. -/
structure MQState where
  queues : List (String × List QueuedMessage)
  nextId : Nat
  deriving Repr, DecidableEq

/-- The freshly constructed queue (`private queues = new Map()`). -/
def initMQ : MQState := { queues := [], nextId := 0 }

/-- Source `MessageQueue.enqueue(roomId, event, data)`: draw a fresh id,
append the message to the room's queue (created lazily), and trim to the
last `maxSize` entries when the length exceeds `maxSize`.  Returns the
generated id with the updated state. -/
def enqueue (cfg : MQConfig) (s : MQState) (roomId event data : String)
    (now : Nat) : Nat × MQState :=
  let id := s.nextId
  let message : QueuedMessage :=
    { id := id, event := event, data := data, timestamp := now, roomId := roomId }
  let queue := (alGet s.queues roomId).getD []
  let queue := queue ++ [message]
  let queue :=
    if queue.length > cfg.maxSize then jsSliceLast cfg.maxSize queue else queue
  (id, { queues := alSet s.queues roomId queue, nextId := s.nextId + 1 })

/-- Source `MessageQueue.getMessagesSince(roomId, lastEventId)`: empty when
the room has no (or an empty) queue; the entries strictly after the first
entry carrying `lastEventId` when it is found; otherwise the recent-tail
fallback `queue.slice(-50)`. -/
def getMessagesSince (s : MQState) (roomId : String) (lastEventId : Nat) :
    List QueuedMessage :=
  match alGet s.queues roomId with
  | none => []
  | some queue =>
    if queue.length = 0 then []
    else
      match queue.findIdx? (fun m => m.id = lastEventId) with
      | none => jsSliceLast 50 queue
      | some lastIndex => queue.drop (lastIndex + 1)

/-- Source `MessageQueue.getLatestEventId(roomId)`: id of the last entry of
the room's queue, `null` when absent or empty. -/
def getLatestEventId (s : MQState) (roomId : String) : Option Nat :=
  match alGet s.queues roomId with
  | none => none
  | some queue =>
    if queue.length = 0 then none else queue.getLast?.map (fun m => m.id)

/-- Source `MessageQueue.getMessages(roomId, limit)`: last `limit` entries. -/
def getMessages (s : MQState) (roomId : String) (limit : Nat) :
    List QueuedMessage :=
  match alGet s.queues roomId with
  | none => []
  | some queue => jsSliceLast limit queue

/-- Source `MessageQueue.hasEventId(roomId, eventId)`. -/
def hasEventId (s : MQState) (roomId : String) (eventId : Nat) : Bool :=
  match alGet s.queues roomId with
  | none => false
  | some queue => queue.any (fun m => m.id = eventId)

/-! ## SSEEventEmitter (event bus)

Listener functions are identified by `Nat` tokens; whether a given listener
throws when invoked during one `emit` is supplied as a predicate
`throws : Nat → Bool`.  `emit`'s return value pairs the updated emitter
state with the list of listeners the event was handed to, in invocation
order (the event value itself never influences the emitter's bookkeeping,
so it is not threaded through). -/

/-- State of `SSEEventEmitter`: per-channel listener sets (insertion-ordered,
duplicate-free lists, as JS `Set`s) plus the global `listenerCount` counter. -/
structure EmitterState where
  listeners : List (String × List Nat)
  listenerCount : Int
  deriving Repr, DecidableEq

/-- The freshly constructed emitter. -/
def initEmitter : EmitterState := { listeners := [], listenerCount := 0 }

/-- Source `SSEEventEmitter.addListener(channel, listener)`: create the
channel set on demand, `Set.add` the listener (a no-op on the set when
already present), and increment the global `listenerCount`
unconditionally.  (The max-listener check only logs a warning.) -/
def addListener (s : EmitterState) (channel : String) (l : Nat) : EmitterState :=
  let channelListeners := (alGet s.listeners channel).getD []
  let channelListeners :=
    if l ∈ channelListeners then channelListeners else channelListeners ++ [l]
  { listeners := alSet s.listeners channel channelListeners,
    listenerCount := s.listenerCount + 1 }

/-- Source `SSEEventEmitter.removeListener(channel, listener)`: `Set.delete`
the listener; on success decrement `listenerCount` and drop the channel
entry once its set is empty.  Returns whether a listener was removed. -/
def removeListener (s : EmitterState) (channel : String) (l : Nat) :
    Bool × EmitterState :=
  match alGet s.listeners channel with
  | none => (false, s)
  | some channelListeners =>
    if l ∈ channelListeners then
      let remaining := channelListeners.erase l
      (true,
        { listeners :=
            if remaining.isEmpty then alRemove s.listeners channel
            else alSet s.listeners channel remaining,
          listenerCount := s.listenerCount - 1 })
    else (false, s)

/-- Source `SSEEventEmitter.removeAllListeners(channel?)`. -/
def removeAllListeners (s : EmitterState) (channel : Option String) :
    EmitterState :=
  match channel with
  | some c =>
    match alGet s.listeners c with
    | none => s
    | some channelListeners =>
      { listeners := alRemove s.listeners c,
        listenerCount := s.listenerCount - channelListeners.length }
  | none => { listeners := [], listenerCount := 0 }

/-- Source `SSEEventEmitter.getListenerCount(channel?)`: a channel's set
size, or the global counter when no channel is given. -/
def getListenerCount (s : EmitterState) (channel : Option String) : Int :=
  match channel with
  | some c => ((alGet s.listeners c).map (fun ls => (ls.length : Int))).getD 0
  | none => s.listenerCount

/-- Source `SSEEventEmitter.hasListeners(channel)`. -/
def hasListeners (s : EmitterState) (channel : String) : Bool :=
  match alGet s.listeners channel with
  | none => false
  | some channelListeners => channelListeners.length > 0

/-- Loop body of `emit`: iterate over the snapshot copy
`[...eventListeners]`; a listener that throws is caught and removed from
the live state via `removeListener('sse', listener)`; every listener in the
snapshot is invoked (accumulated in `delivered`). -/
def emitGo (throws : Nat → Bool) : List Nat → EmitterState → List Nat →
    EmitterState × List Nat
  | [], s, delivered => (s, delivered)
  | l :: rest, s, delivered =>
    if throws l then
      emitGo throws rest (removeListener s "sse" l).2 (delivered ++ [l])
    else
      emitGo throws rest s (delivered ++ [l])

/-- Source `SSEEventEmitter.emit(type, data, id?)`: deliver to the listeners
of the `"sse"` broadcast channel (if any), over a copy of the set, catching
and removing listeners that throw.  Returns the updated state and the
listeners invoked, in order. -/
def emit (throws : Nat → Bool) (s : EmitterState) : EmitterState × List Nat :=
  match alGet s.listeners "sse" with
  | none => (s, [])
  | some eventListeners =>
    if eventListeners.length > 0 then emitGo throws eventListeners s []
    else (s, [])

/-! ## SSEManager (connection registry) -/

/-- Source interface `SSEConnection`; `connectionId` is a fresh-counter
value standing for the `crypto.randomUUID()` string, and `controller`
records whether the stream controller reference is non-null. -/
structure SSEConnection where
  connectionId : Nat
  userId : String
  connectedAt : Nat
  lastActivity : Nat
  lastHeartbeat : Nat
  roomId : String
  controller : Bool
  deriving Repr, DecidableEq

/-- State of `SSEManager`: the `connections` map, the `userConnections`
map, and the fresh-id counter standing for `crypto.randomUUID`. -/
structure ManagerState where
  connections : List (Nat × SSEConnection)
  userConnections : List (String × List Nat)
  nextConnId : Nat
  deriving Repr, DecidableEq

/-- The freshly constructed manager. -/
def initManager : ManagerState :=
  { connections := [], userConnections := [], nextConnId := 0 }

/-- Source `SSEManager.addConnection(userId, roomId, controller)`: allocate
a fresh connection id, insert the connection into `connections`, report
`isNewUser` when the user had no tracked set (or an empty one), and add the
id to the user's set (created on demand). -/
def addConnection (s : ManagerState) (userId roomId : String) (now : Nat) :
    (Nat × Bool) × ManagerState :=
  let connectionId := s.nextConnId
  let connection : SSEConnection :=
    { connectionId := connectionId, userId := userId, connectedAt := now,
      lastActivity := now, lastHeartbeat := now, roomId := roomId,
      controller := true }
  let connections := alSet s.connections connectionId connection
  let userConns := alGet s.userConnections userId
  let isNewUser :=
    match userConns with
    | none => true
    | some l => l.isEmpty
  let conns := userConns.getD []
  let conns := if connectionId ∈ conns then conns else conns ++ [connectionId]
  ((connectionId, isNewUser),
    { connections := connections,
      userConnections := alSet s.userConnections userId conns,
      nextConnId := s.nextConnId + 1 })

/-- Source `SSEManager.removeConnection(connectionId)`: a no-op reporting
`{removed: false, isLastConnection: false, userId: null}` for an unknown
id; otherwise delete from `connections`, delete the id from the owner's
set (dropping the set once empty), and report whether the owner now has no
connection left. -/
def removeConnection (s : ManagerState) (connectionId : Nat) :
    (Bool × Bool × Option String) × ManagerState :=
  match alGet s.connections connectionId with
  | none => ((false, false, none), s)
  | some connection =>
    let userId := connection.userId
    let connections := alRemove s.connections connectionId
    match alGet s.userConnections userId with
    | none =>
      ((true, true, some userId),
        { s with connections := connections })
    | some userConns =>
      let remaining := userConns.erase connectionId
      let userConnections :=
        if remaining.isEmpty then alRemove s.userConnections userId
        else alSet s.userConnections userId remaining
      ((true, remaining.isEmpty, some userId),
        { s with connections := connections, userConnections := userConnections })

/-- Source `SSEManager.getConnection(connectionId)`. -/
def getConnection (s : ManagerState) (connectionId : Nat) :
    Option SSEConnection :=
  alGet s.connections connectionId

/-- Source `SSEManager.hasUserConnection(userId)`. -/
def hasUserConnection (s : ManagerState) (userId : String) : Bool :=
  match alGet s.userConnections userId with
  | none => false
  | some userConns => userConns.length > 0

/-- Source `SSEManager.acknowledgeHeartbeat(connectionId)`: refresh
`lastHeartbeat` and `lastActivity` to `Date.now()` when the connection is
known, otherwise report failure. -/
def acknowledgeHeartbeat (s : ManagerState) (connectionId : Nat) (now : Nat) :
    Bool × ManagerState :=
  match alGet s.connections connectionId with
  | none => (false, s)
  | some connection =>
    let connection' := { connection with lastHeartbeat := now, lastActivity := now }
    (true, { s with connections := alSet s.connections connectionId connection' })

/-- Source `SSEManager.cleanupStaleConnections()`: collect the ids whose
heartbeat silence exceeds the timeout, then remove each through
`removeConnection`. -/
def cleanupStaleConnections (s : ManagerState) (now timeout : Nat) :
    ManagerState :=
  let staleConnections :=
    (s.connections.filter
      (fun p => now - p.2.lastHeartbeat > timeout)).map (fun p => p.1)
  staleConnections.foldl (fun st connId => (removeConnection st connId).2) s

/-! ## Heartbeat acknowledgment endpoint -/

/-- Source `POST /api/sse/heartbeat`: authenticate, validate the body's
`connectionId`, reject an unknown connection with 404 and a connection
owned by another user with 403 (leaving all state untouched), otherwise
acknowledge.  Returns the HTTP status with the resulting manager state. -/
def heartbeatPOST (s : ManagerState) (user : Option String)
    (body : Option Nat) (now : Nat) : Nat × ManagerState :=
  match user with
  | none => (401, s)
  | some uid =>
    match body with
    | none => (400, s)
    | some connectionId =>
      match getConnection s connectionId with
      | none => (404, s)
      | some connection =>
        if connection.userId ≠ uid then (403, s)
        else
          let (acknowledged, s') := acknowledgeHeartbeat s connectionId now
          if acknowledged then (200, s') else (500, s')

/-! ## broadcast and the SSE endpoint's live listener -/

/-- Source `SSEManager.broadcast(type, data, roomId?)`: draw a wire event id,
enqueue into the catch-up queue first when a room is given, then emit on the
bus.  Returns the updated queue state, emitter state, and the invoked
listeners. -/
def broadcast (cfg : MQConfig) (mq : MQState) (em : EmitterState)
    (throws : Nat → Bool) (type data : String) (roomId : Option String)
    (now : Nat) : MQState × EmitterState × List Nat :=
  let mq : MQState := { mq with nextId := mq.nextId + 1 }
  let mq :=
    match roomId with
    | some r => (enqueue cfg mq r type data now).2
    | none => mq
  let (em', delivered) := emit throws em
  (mq, em', delivered)

/-- Source `onSSE` in `routes/api/sse/+server.ts`: on a live bus event,
draw a fresh wire event id, write the frame, then (for non-heartbeat
events) enqueue the event into the catch-up queue — which draws its own
fresh id for the stored entry.  Returns the wire frame's event id with the
updated queue state. -/
def onSSE (cfg : MQConfig) (mq : MQState) (roomId evType evData : String)
    (now : Nat) : Nat × MQState :=
  let eventId := mq.nextId
  let mq : MQState := { mq with nextId := mq.nextId + 1 }
  if evType ≠ "heartbeat" then
    (eventId, (enqueue cfg mq roomId evType evData now).2)
  else
    (eventId, mq)

/-! ## SSEClient backoff -/

/-- Source `SSEClient.calculateBackoff` deterministic component:
`Math.min(base * Math.pow(2, attempts), max)`. -/
def backoffExpDelay (base maxDelay attempts : Nat) : Nat :=
  min (base * 2 ^ attempts) maxDelay

/-- Source `SSEClient.calculateBackoff`: exponential delay plus uniform
jitter `exponentialDelay * Math.random() * 0.25`, floored.  `rand` is the
`Math.random()` draw, a rational in `[0, 1)`. -/
def calculateBackoff (base maxDelay attempts : Nat) (rand : ℚ) : ℤ :=
  let exponentialDelay := backoffExpDelay base maxDelay attempts
  let jitter : ℚ := (exponentialDelay : ℚ) * rand * (25 / 100)
  ⌊(exponentialDelay : ℚ) + jitter⌋

/-- Source `SSEClient.handleDisconnection` increments `_reconnectAttempts`
before computing the delay, so the delay scheduled for the k-th reconnect
attempt is `calculateBackoff` evaluated with the counter equal to `k`. -/
def attemptDelay (base maxDelay k : Nat) (rand : ℚ) : ℤ :=
  calculateBackoff base maxDelay k rand

/-! ## Operation sequences (observation-point drivers) -/

/-- One `enqueue(roomId, event, data)` call, with the `Date.now()` value at
the time of the call. -/
structure EnqueueCall where
  roomId : String
  event : String
  data : String
  now : Nat
  deriving Repr, DecidableEq

/-- Apply a sequence of `enqueue` calls left to right. -/
def enqueueAll (cfg : MQConfig) (calls : List EnqueueCall) (s : MQState) :
    MQState :=
  calls.foldl (fun st c => (enqueue cfg st c.roomId c.event c.data c.now).2) s

/-- The untrimmed insertion history for room `r` along a call sequence
starting from counter value `nextId`: every message the calls insert into
room `r`, in insertion order, with the ids `enqueue` assigns. -/
def roomHistory (r : String) : List EnqueueCall → Nat → List QueuedMessage
  | [], _ => []
  | c :: rest, nextId =>
    (if c.roomId = r then
      [{ id := nextId, event := c.event, data := c.data,
         timestamp := c.now, roomId := c.roomId }]
     else []) ++ roomHistory r rest (nextId + 1)

/-- One registry operation: an `addConnection`, a `removeConnection`, or a
`cleanupStaleConnections` sweep (which removes via the same path). -/
inductive RegOp where
  | add (userId roomId : String) (now : Nat)
  | remove (connectionId : Nat)
  | sweep (now timeout : Nat)
  deriving Repr, DecidableEq

/-- Apply one registry operation. -/
def applyRegOp (s : ManagerState) : RegOp → ManagerState
  | RegOp.add u r now => (addConnection s u r now).2
  | RegOp.remove cid => (removeConnection s cid).2
  | RegOp.sweep now timeout => cleanupStaleConnections s now timeout

/-- Apply a sequence of registry operations left to right. -/
def applyRegOps (ops : List RegOp) (s : ManagerState) : ManagerState :=
  ops.foldl applyRegOp s

/-- One emitter operation: `addListener`, `removeListener`, or
`removeAllListeners`. -/
inductive EmOp where
  | addL (channel : String) (l : Nat)
  | removeL (channel : String) (l : Nat)
  | removeAll (channel : Option String)
  deriving Repr, DecidableEq

/-- Apply one emitter operation. -/
def applyEmOp (s : EmitterState) : EmOp → EmitterState
  | EmOp.addL c l => addListener s c l
  | EmOp.removeL c l => (removeListener s c l).2
  | EmOp.removeAll c => removeAllListeners s c

/-- Apply a sequence of emitter operations left to right. -/
def applyEmOps (ops : List EmOp) (s : EmitterState) : EmitterState :=
  ops.foldl applyEmOp s

/-- Sum over all channels of the channel's listener-set size, over a raw
channel map. -/
def sumSizes (m : List (String × List Nat)) : Int :=
  (m.map (fun p => (p.2.length : Int))).sum

/-- Sum over all channels of that channel's listener-set size. -/
def sumChannelSizes (s : EmitterState) : Int :=
  sumSizes s.listeners

/-- An emitter trace is duplicate-free when every `addListener` call
registers a listener not currently present on that channel. -/
def dupFreeTrace (s : EmitterState) : List EmOp → Bool
  | [] => true
  | op :: rest =>
    (match op with
     | EmOp.addL c l => !((alGet s.listeners c).getD []).contains l
     | _ => true) && dupFreeTrace (applyEmOp s op) rest

/-- A listener is registered on a channel of the given emitter state. -/
def memChan (s : EmitterState) (channel : String) (l : Nat) : Prop :=
  ∃ cur, alGet s.listeners channel = some cur ∧ l ∈ cur

/-! ## Generic helper lemmas -/

theorem alGet_alSet {κ α : Type} [DecidableEq κ]
    (m : List (κ × α)) (k k' : κ) (v : α) :
    alGet (alSet m k v) k' = if k = k' then some v else alGet m k' := by
  induction m with
  | nil => by_cases h : k = k' <;> simp [alSet, alGet, h]
  | cons p rest ih =>
    obtain ⟨pk, pv⟩ := p
    by_cases hpk : pk = k
    · subst hpk
      by_cases h : pk = k' <;> simp [alSet, alGet, h]
    · by_cases h : pk = k'
      · subst h
        have hk : ¬(k = pk) := fun he => hpk he.symm
        simp [alSet, alGet, hpk, hk]
      · simp [alSet, alGet, hpk, h, ih]

theorem alGet_alRemove {κ α : Type} [DecidableEq κ]
    (m : List (κ × α)) (k k' : κ) :
    alGet (alRemove m k) k' = if k = k' then none else alGet m k' := by
  induction m with
  | nil => by_cases h : k = k' <;> simp [alRemove, alGet, h]
  | cons p rest ih =>
    obtain ⟨pk, pv⟩ := p
    by_cases hpk : pk = k
    · subst hpk
      have hdrop : alRemove ((pk, pv) :: rest) pk = alRemove rest pk := by
        simp [alRemove, List.filter_cons]
      rw [hdrop, ih]
      by_cases h : pk = k'
      · simp [h]
      · simp [h, alGet]
    · have hkeep : alRemove ((pk, pv) :: rest) k = (pk, pv) :: alRemove rest k := by
        simp [alRemove, List.filter_cons, hpk]
      rw [hkeep]
      by_cases h : pk = k'
      · subst h
        have hk : ¬(k = pk) := fun he => hpk he.symm
        simp [alGet, hk]
      · simp [alGet, h, ih]

theorem jsSliceLast_length {α : Type} (n : Nat) (l : List α) (hn : 1 ≤ n) :
    (jsSliceLast n l).length = min n l.length := by
  unfold jsSliceLast
  rw [if_neg (by omega)]
  simp [List.length_drop]
  omega

theorem jsSliceLast_of_le {α : Type} (n : Nat) (l : List α)
    (h : l.length ≤ n) : jsSliceLast n l = l := by
  unfold jsSliceLast
  by_cases hn : n = 0
  · simp [hn]
  · rw [if_neg hn]
    have : l.length - n = 0 := by omega
    simp [this]

theorem getLast?_drop {α : Type} (l : List α) (n : Nat) (h : n < l.length) :
    (l.drop n).getLast? = l.getLast? := by
  induction l generalizing n with
  | nil => simp at h
  | cons a t ih =>
    cases n with
    | zero => simp
    | succ m =>
      have hm : m < t.length := by simpa using h
      cases t with
      | nil => simp at hm
      | cons b t' =>
        simp only [List.drop_succ_cons]
        rw [ih m hm, List.getLast?_cons_cons]

theorem jsSliceLast_getLast? {α : Type} (n : Nat) (l : List α) (h : l ≠ []) :
    (jsSliceLast n l).getLast? = l.getLast? := by
  unfold jsSliceLast
  by_cases hn : n = 0
  · simp [hn]
  · rw [if_neg hn]
    apply getLast?_drop
    have : 0 < l.length := List.length_pos.mpr h
    omega

theorem mem_of_getLast? {α : Type} {l : List α} {x : α}
    (h : l.getLast? = some x) : x ∈ l := by
  have hmem : x ∈ l.getLast? := by rw [h]; rfl
  obtain ⟨hne, hx2⟩ := List.mem_getLast?_eq_getLast hmem
  rw [hx2]
  exact List.getLast_mem hne

theorem getLast?_mem_drop {α : Type} (l : List α) (n : Nat) (x : α)
    (h : n < l.length) (hx : l.getLast? = some x) : x ∈ l.drop n := by
  apply mem_of_getLast?
  rw [getLast?_drop l n h, hx]

theorem jsSliceLast_ne_nil {α : Type} (n : Nat) (l : List α) (h : l ≠ []) :
    jsSliceLast n l ≠ [] := by
  intro he
  have h2 := jsSliceLast_getLast? n l h
  rw [he, List.getLast?_eq_getLast_of_ne_nil h] at h2
  simp at h2

theorem mem_jsSliceLast {α : Type} {n : Nat} {l : List α} {x : α}
    (h : x ∈ jsSliceLast n l) : x ∈ l := by
  unfold jsSliceLast at h
  split at h
  · exact h
  · exact List.mem_of_mem_drop h

/-! ## MessageQueue lemmas -/

theorem enqueue_spec (cfg : MQConfig) (s : MQState) (roomId event data : String)
    (now : Nat) :
    ∃ q2,
      (enqueue cfg s roomId event data now).1 = s.nextId ∧
      (enqueue cfg s roomId event data now).2 =
        { queues := alSet s.queues roomId q2, nextId := s.nextId + 1 } ∧
      q2.getLast? = some
        { id := s.nextId, event := event, data := data,
          timestamp := now, roomId := roomId } ∧
      q2 ≠ [] ∧
      (∀ m ∈ q2, m ∈ ((alGet s.queues roomId).getD []) ++
        [{ id := s.nextId, event := event, data := data,
           timestamp := now, roomId := roomId }]) := by
  by_cases h :
      (((alGet s.queues roomId).getD []) ++
        [({ id := s.nextId, event := event, data := data,
            timestamp := now, roomId := roomId } : QueuedMessage)]).length >
        cfg.maxSize
  · refine ⟨jsSliceLast cfg.maxSize
        (((alGet s.queues roomId).getD []) ++
          [{ id := s.nextId, event := event, data := data,
             timestamp := now, roomId := roomId }]), rfl, ?_, ?_, ?_, ?_⟩
    · simp only [enqueue]
      rw [if_pos h]
    · rw [jsSliceLast_getLast? _ _ (by simp)]
      simp
    · exact jsSliceLast_ne_nil _ _ (by simp)
    · intro m hm
      exact mem_jsSliceLast hm
  · refine ⟨((alGet s.queues roomId).getD []) ++
        [{ id := s.nextId, event := event, data := data,
           timestamp := now, roomId := roomId }], rfl, ?_, ?_, ?_, ?_⟩
    · simp only [enqueue]
      rw [if_neg h]
    · simp
    · simp
    · intro m hm
      exact hm

/-- Well-formedness of a queue state wrt the fresh-id counter: every stored
id was drawn earlier, hence is below the counter. -/
def MQFresh (s : MQState) : Prop :=
  ∀ r q, alGet s.queues r = some q → ∀ m ∈ q, m.id < s.nextId

theorem enqueue_fresh (cfg : MQConfig) (s : MQState)
    (roomId event data : String) (now : Nat) (hwf : MQFresh s) :
    MQFresh (enqueue cfg s roomId event data now).2 := by
  obtain ⟨q2, -, hstate, -, -, hsub⟩ :=
    enqueue_spec cfg s roomId event data now
  intro r q hq m hm
  rw [hstate] at hq ⊢
  simp only [] at hq ⊢
  rw [alGet_alSet] at hq
  by_cases hr : roomId = r
  · rw [if_pos hr] at hq
    cases hq
    have := hsub m hm
    rcases List.mem_append.mp this with hold | hnew
    · cases halg : alGet s.queues roomId with
      | none => rw [halg] at hold; simp at hold
      | some q0 =>
        rw [halg] at hold
        simp only [Option.getD_some] at hold
        have := hwf roomId q0 halg m hold
        omega
    · simp at hnew
      rw [hnew]
      simp only []
      omega
  · rw [if_neg hr] at hq
    have := hwf r q hq m hm
    omega

theorem getLatestEventId_some (s : MQState) (roomId : String)
    (q : List QueuedMessage) (hq : alGet s.queues roomId = some q) :
    getLatestEventId s roomId =
      if q.length = 0 then none else q.getLast?.map (fun m => m.id) := by
  unfold getLatestEventId
  rw [hq]

theorem getMessagesSince_some (s : MQState) (roomId : String)
    (lastEventId : Nat) (q : List QueuedMessage)
    (hq : alGet s.queues roomId = some q) :
    getMessagesSince s roomId lastEventId =
      if q.length = 0 then []
      else
        match q.findIdx? (fun m => m.id = lastEventId) with
        | none => jsSliceLast 50 q
        | some lastIndex => q.drop (lastIndex + 1) := by
  unfold getMessagesSince
  rw [hq]

theorem get_last_of_getLast? {α : Type} (l : List α) (x : α)
    (h : l.getLast? = some x) (hlt : l.length - 1 < l.length) :
    l.get ⟨l.length - 1, hlt⟩ = x := by
  have h1 : l[l.length - 1]? = some x := by
    rw [← List.getLast?_eq_getElem?]
    exact h
  rw [List.getElem?_eq_getElem hlt] at h1
  rw [List.get_eq_getElem]
  exact Option.some_injective _ h1

/-- C1: `broadcast(type, data, roomId)` enqueues into the catch-up buffer,
so an immediate `getMessagesSince(roomId, id0)` — with `id0` the latest
catch-up id before the broadcast — returns a sequence containing an entry
with that type and payload, for any emitter state (in particular with zero
listeners) and any connection population (the queue path never touches
connections). -/
theorem broadcast_then_getMessagesSince_contains
    (cfg : MQConfig) (mq : MQState) (em : EmitterState) (throws : Nat → Bool)
    (type data roomId : String) (now id0 : Nat)
    (hwf : MQFresh mq)
    (hlatest : getLatestEventId mq roomId = some id0) :
    ∃ m ∈ getMessagesSince
        (broadcast cfg mq em throws type data (some roomId) now).1 roomId id0,
      m.event = type ∧ m.data = data := by
  classical
  cases halg : alGet mq.queues roomId with
  | none =>
    rw [show getLatestEventId mq roomId = none by
      unfold getLatestEventId; rw [halg]] at hlatest
    simp at hlatest
  | some q0 =>
    rw [getLatestEventId_some mq roomId q0 halg] at hlatest
    by_cases hq0 : q0.length = 0
    · rw [if_pos hq0] at hlatest; simp at hlatest
    · rw [if_neg hq0] at hlatest
      obtain ⟨mlast, hml, hmlid⟩ := Option.map_eq_some'.mp hlatest
      have hid0 : id0 < mq.nextId := by
        have hmem : mlast ∈ q0 := mem_of_getLast? hml
        have := hwf roomId q0 halg mlast hmem
        omega
      obtain ⟨q2, -, hstate, hlast, hne2, -⟩ :=
        enqueue_spec cfg ({ mq with nextId := mq.nextId + 1 }) roomId type data
          now
      simp only [] at hstate hlast
      have hbc : (broadcast cfg mq em throws type data (some roomId) now).1 =
          { queues := alSet mq.queues roomId q2, nextId := mq.nextId + 2 } := by
        unfold broadcast
        rcases hem : emit throws em with ⟨em2, delivered⟩
        simp only [hem]
        rw [hstate]
      have hget : alGet
          (broadcast cfg mq em throws type data (some roomId) now).1.queues
          roomId = some q2 := by
        rw [hbc]
        simp only []
        rw [alGet_alSet]
        simp
      have hlen2 : 0 < q2.length := List.length_pos.mpr hne2
      rw [getMessagesSince_some _ _ _ q2 hget]
      rw [if_neg (by omega)]
      cases hfind : q2.findIdx? (fun m => m.id = id0) with
      | none =>
        simp only []
        refine ⟨{ id := mq.nextId + 1, event := type, data := data,
                  timestamp := now, roomId := roomId }, ?_, rfl, rfl⟩
        unfold jsSliceLast
        rw [if_neg (by omega)]
        exact getLast?_mem_drop q2 _
          ({ id := mq.nextId + 1, event := type, data := data,
             timestamp := now, roomId := roomId }) (by omega) hlast
      | some i =>
        simp only []
        obtain ⟨hilt, hpi, -⟩ := List.findIdx?_eq_some_iff_getElem.mp hfind
        have hq2i : (q2.get ⟨i, hilt⟩).id = id0 := by
          rw [List.get_eq_getElem]
          simpa using hpi
        have hne' : i ≠ q2.length - 1 := by
          intro he
          subst he
          have hlastget := get_last_of_getLast? q2 _ hlast hilt
          rw [hlastget] at hq2i
          simp at hq2i
          omega
        refine ⟨{ id := mq.nextId + 1, event := type, data := data,
                  timestamp := now, roomId := roomId }, ?_, rfl, rfl⟩
        exact getLast?_mem_drop q2 (i + 1)
          ({ id := mq.nextId + 1, event := type, data := data,
             timestamp := now, roomId := roomId }) (by omega) hlast

theorem broadcast_then_getMessagesSince_contains_witness :
    ∃ m ∈ getMessagesSince
        (broadcast defaultMQConfig
          (enqueueAll defaultMQConfig [⟨"room1", "chatMessage", "a", 1⟩] initMQ)
          initEmitter (fun _ => false) "chatMessage" "b" (some "room1") 2).1
        "room1" 0,
      m.event = "chatMessage" ∧ m.data = "b" := by
  apply broadcast_then_getMessagesSince_contains
  · exact enqueue_fresh defaultMQConfig initMQ "room1" "chatMessage" "a" 1
      (fun r q hq => by simp [initMQ, alGet] at hq)
  · rfl

/-- C2: when the SSE endpoint's bus listener delivers a non-heartbeat
event, the id written on the wire frame and the id stored with the
catch-up entry are two distinct fresh draws: they are never equal, the
wire id occurs nowhere in the room's queue, and `getMessagesSince` with
the wire id takes the unknown-id fallback (`findIndex` misses; the result
is the recent tail `queue.slice(-50)`). -/
theorem onSSE_wire_id_fresh_fallback
    (cfg : MQConfig) (mq : MQState) (roomId evType evData : String)
    (now : Nat)
    (hwf : MQFresh mq)
    (hnh : evType ≠ "heartbeat") :
    ∃ q2, alGet (onSSE cfg mq roomId evType evData now).2.queues roomId =
        some q2 ∧
      (∃ m, q2.getLast? = some m ∧ m.event = evType ∧ m.data = evData ∧
        m.id ≠ (onSSE cfg mq roomId evType evData now).1) ∧
      (∀ m ∈ q2, m.id ≠ (onSSE cfg mq roomId evType evData now).1) ∧
      q2.findIdx?
        (fun m => m.id = (onSSE cfg mq roomId evType evData now).1) = none ∧
      getMessagesSince (onSSE cfg mq roomId evType evData now).2 roomId
        (onSSE cfg mq roomId evType evData now).1 = jsSliceLast 50 q2 := by
  classical
  obtain ⟨q2, -, hstate, hlast, hne2, hsub⟩ :=
    enqueue_spec cfg ({ mq with nextId := mq.nextId + 1 }) roomId evType evData
      now
  simp only [] at hstate hlast hsub
  have hfst : (onSSE cfg mq roomId evType evData now).1 = mq.nextId := by
    unfold onSSE
    rw [if_pos hnh]
  have hsnd : (onSSE cfg mq roomId evType evData now).2 =
      { queues := alSet mq.queues roomId q2, nextId := mq.nextId + 2 } := by
    unfold onSSE
    rw [if_pos hnh]
    simp only []
    rw [hstate]
  have hget : alGet (onSSE cfg mq roomId evType evData now).2.queues roomId =
      some q2 := by
    rw [hsnd]
    simp only []
    rw [alGet_alSet]
    simp
  have hnotin : ∀ m ∈ q2, m.id ≠ mq.nextId := by
    intro m hm
    have := hsub m hm
    rcases List.mem_append.mp this with hold | hnew
    · cases halg : alGet mq.queues roomId with
      | none => rw [halg] at hold; simp at hold
      | some q0 =>
        rw [halg] at hold
        simp only [Option.getD_some] at hold
        have := hwf roomId q0 halg m hold
        omega
    · simp at hnew
      rw [hnew]
      simp only []
      omega
  have hfind : q2.findIdx?
      (fun m => m.id = (onSSE cfg mq roomId evType evData now).1) = none := by
    rw [List.findIdx?_eq_none_iff]
    intro m hm
    rw [hfst]
    simp [hnotin m hm]
  refine ⟨q2, hget, ?_, ?_, hfind, ?_⟩
  · refine ⟨_, hlast, rfl, rfl, ?_⟩
    rw [hfst]
    simp only []
    omega
  · intro m hm
    rw [hfst]
    exact hnotin m hm
  · rw [getMessagesSince_some _ _ _ q2 hget]
    rw [if_neg (by simpa [List.length_eq_zero] using hne2), hfind]

theorem onSSE_wire_id_fresh_fallback_witness :
    ∃ q2, alGet
        (onSSE defaultMQConfig initMQ "room1" "chatMessage" "x" 3).2.queues
        "room1" = some q2 ∧
      (∃ m, q2.getLast? = some m ∧ m.event = "chatMessage" ∧ m.data = "x" ∧
        m.id ≠ (onSSE defaultMQConfig initMQ "room1" "chatMessage" "x" 3).1) ∧
      (∀ m ∈ q2, m.id ≠
        (onSSE defaultMQConfig initMQ "room1" "chatMessage" "x" 3).1) ∧
      q2.findIdx? (fun m => m.id =
        (onSSE defaultMQConfig initMQ "room1" "chatMessage" "x" 3).1) = none ∧
      getMessagesSince
        (onSSE defaultMQConfig initMQ "room1" "chatMessage" "x" 3).2
        "room1" (onSSE defaultMQConfig initMQ "room1" "chatMessage" "x" 3).1 =
        jsSliceLast 50 q2 := by
  apply onSSE_wire_id_fresh_fallback
  · intro r q hq m hm
    simp [initMQ, alGet] at hq
  · decide

/-- C6: for a room with a non-empty catch-up log and an id not present in
the log, `getMessagesSince` returns exactly the recent tail
`queue.slice(-50)` — hence at most 50 entries, and never the whole log when
the log is longer than 50; for a room with no log it returns `[]`. -/
theorem getMessagesSince_unknown_id_bounded (s : MQState) (roomId : String)
    (lastEventId : Nat) :
    (∀ q, alGet s.queues roomId = some q → q ≠ [] →
      (∀ m ∈ q, m.id ≠ lastEventId) →
      getMessagesSince s roomId lastEventId = jsSliceLast 50 q ∧
      (getMessagesSince s roomId lastEventId).length = min 50 q.length ∧
      (50 < q.length → getMessagesSince s roomId lastEventId ≠ q)) ∧
    (alGet s.queues roomId = none →
      getMessagesSince s roomId lastEventId = []) := by
  constructor
  · intro q hq hne hnot
    have hfind : q.findIdx? (fun m => m.id = lastEventId) = none := by
      rw [List.findIdx?_eq_none_iff]
      intro x hx
      simp [hnot x hx]
    have hlen : ¬(q.length = 0) := by
      simpa [List.length_eq_zero] using hne
    have hres : getMessagesSince s roomId lastEventId = jsSliceLast 50 q := by
      unfold getMessagesSince
      rw [hq]
      simp only [if_neg hlen, hfind]
    refine ⟨hres, ?_, ?_⟩
    · rw [hres, jsSliceLast_length 50 q (by omega)]
    · intro hgt heq
      have hlq := congrArg List.length heq
      rw [hres, jsSliceLast_length 50 q (by omega)] at hlq
      omega
  · intro h
    unfold getMessagesSince
    rw [h]

theorem getMessagesSince_unknown_id_bounded_witness :
    (getMessagesSince
        (enqueueAll defaultMQConfig
          [⟨"room1", "chatMessage", "a", 1⟩, ⟨"room1", "chatMessage", "b", 2⟩]
          initMQ) "room1" 99 =
      jsSliceLast 50
        [{ id := 0, event := "chatMessage", data := "a",
           timestamp := 1, roomId := "room1" },
         { id := 1, event := "chatMessage", data := "b",
           timestamp := 2, roomId := "room1" }]) ∧
    getMessagesSince initMQ "room1" 99 = [] := by
  constructor
  · exact ((getMessagesSince_unknown_id_bounded
      (enqueueAll defaultMQConfig
        [⟨"room1", "chatMessage", "a", 1⟩, ⟨"room1", "chatMessage", "b", 2⟩]
        initMQ) "room1" 99).1 _ rfl (by decide) (by decide)).1
  · exact (getMessagesSince_unknown_id_bounded initMQ "room1" 99).2 rfl

/-! ## Registry: C8 and C9 -/

/-- C8: `removeConnection` on a connection id that is not registered is a
no-op reporting `{removed: false, isLastConnection: false, userId: null}`
and leaves the manager state (both maps) unchanged. -/
theorem removeConnection_absent_noop (s : ManagerState) (connectionId : Nat)
    (h : alGet s.connections connectionId = none) :
    removeConnection s connectionId = ((false, false, none), s) := by
  unfold removeConnection
  rw [h]

theorem removeConnection_absent_noop_witness :
    removeConnection (addConnection initManager "alice" "room1" 10).2 7 =
      ((false, false, none), (addConnection initManager "alice" "room1" 10).2) :=
  removeConnection_absent_noop (addConnection initManager "alice" "room1" 10).2 7
    rfl

/-- C9: a heartbeat acknowledgment naming a registered connection owned by
a user other than the authenticated caller is rejected with HTTP 403 and
the manager state is returned unchanged — so the connection's
`lastHeartbeat`/`lastActivity` and both registry maps are untouched. -/
theorem heartbeat_wrong_user_403 (s : ManagerState) (caller : String)
    (connectionId now : Nat) (c : SSEConnection)
    (hc : alGet s.connections connectionId = some c)
    (hu : c.userId ≠ caller) :
    heartbeatPOST s (some caller) (some connectionId) now = (403, s) := by
  simp only [heartbeatPOST, getConnection]
  rw [hc]
  simp [hu]

theorem heartbeat_wrong_user_403_witness :
    heartbeatPOST (addConnection initManager "alice" "room1" 100).2
      (some "bob") (some 0) 200 =
      (403, (addConnection initManager "alice" "room1" 100).2) :=
  heartbeat_wrong_user_403 (addConnection initManager "alice" "room1" 100).2
    "bob" 0 200
    { connectionId := 0, userId := "alice", connectedAt := 100,
      lastActivity := 100, lastHeartbeat := 100, roomId := "room1",
      controller := true }
    rfl (by decide)

/-! ## SSEClient backoff: C3 -/

/-- The spec example's claimed window for reconnect attempt 1 does not fit
the code: with base 1000 ms and cap 60000 ms, `handleDisconnection` has
already incremented the attempt counter to 1, so `calculateBackoff`
computes `min(1000 * 2^1, 60000) = 2000` ms — at zero jitter the delay is
2000 ms, outside the claimed 1000-1250 ms window. -/
theorem backoff_attempt1_range_cex :
    attemptDelay 1000 60000 1 0 = 2000 ∧
    ¬((1000 : ℤ) ≤ attemptDelay 1000 60000 1 0 ∧
      attemptDelay 1000 60000 1 0 ≤ 1250) := by
  have h : attemptDelay 1000 60000 1 0 = 2000 := by
    unfold attemptDelay calculateBackoff backoffExpDelay
    rw [show min (1000 * 2 ^ 1 : Nat) 60000 = 2000 by
      rw [show (1000 * 2 ^ 1 : Nat) = 2000 by norm_num]
      exact min_eq_left (by norm_num)]
    norm_num
  refine ⟨h, ?_⟩
  rw [h]
  omega

theorem attemptDelay_ge (base maxDelay k : Nat) (r : ℚ) (h0 : 0 ≤ r) :
    (backoffExpDelay base maxDelay k : ℤ) ≤ attemptDelay base maxDelay k r := by
  unfold attemptDelay calculateBackoff
  have hj : (0 : ℚ) ≤ (backoffExpDelay base maxDelay k : ℚ) * r * (25 / 100) := by
    positivity
  calc (backoffExpDelay base maxDelay k : ℤ) =
      ⌊((backoffExpDelay base maxDelay k : Nat) : ℚ)⌋ := by
        rw [Int.floor_natCast]
    _ ≤ _ := Int.floor_le_floor (by linarith)

theorem attemptDelay_le (base maxDelay k : Nat) (r : ℚ) (h1 : r < 1)
    (h0 : 0 ≤ r) (cap : ℤ)
    (hcap : (5 : ℚ) * (backoffExpDelay base maxDelay k : ℚ) / 4 ≤ (cap : ℚ)) :
    attemptDelay base maxDelay k r ≤ cap := by
  unfold attemptDelay calculateBackoff
  have he : (0 : ℚ) ≤ (backoffExpDelay base maxDelay k : ℚ) := by positivity
  have hle : (backoffExpDelay base maxDelay k : ℚ) +
      (backoffExpDelay base maxDelay k : ℚ) * r * (25 / 100) ≤ (cap : ℚ) := by
    nlinarith
  calc ⌊(backoffExpDelay base maxDelay k : ℚ) +
      (backoffExpDelay base maxDelay k : ℚ) * r * (25 / 100)⌋ ≤
      ⌊(cap : ℚ)⌋ := Int.floor_le_floor hle
    _ = cap := Int.floor_intCast cap

theorem backoffExpDelay_ge_six (k : Nat) (hk : 6 ≤ k) :
    backoffExpDelay 1000 60000 k = 60000 := by
  unfold backoffExpDelay
  have h64 : (64 : Nat) ≤ 2 ^ k := by
    calc (64 : Nat) = 2 ^ 6 := by norm_num
    _ ≤ 2 ^ k := Nat.pow_le_pow_right (by norm_num) hk
  have h60 : (60000 : Nat) ≤ 1000 * 2 ^ k := by
    calc (60000 : Nat) ≤ 1000 * 64 := by norm_num
    _ ≤ 1000 * 2 ^ k := Nat.mul_le_mul_left 1000 h64
  exact min_eq_right h60

/-- C3 amended: the deterministic (non-jitter) backoff component
`min(base * 2^k, cap)` is non-decreasing in the attempt number and never
exceeds the cap, and jitter adds at most 25%; but since
`handleDisconnection` increments the counter before computing, attempt k
uses `2^k` (not `2^(k-1)`): with base 1000 ms and cap 60000 ms the total
delay lies in 2000-2500 ms for attempt 1, 32000-40000 ms for attempt 5,
and 60000-75000 ms for every attempt 6 and beyond. -/
theorem backoff_amended :
    (∀ base maxDelay j k, j ≤ k →
      backoffExpDelay base maxDelay j ≤ backoffExpDelay base maxDelay k) ∧
    (∀ base maxDelay k, backoffExpDelay base maxDelay k ≤ maxDelay) ∧
    (∀ r : ℚ, 0 ≤ r → r < 1 →
      ((2000 : ℤ) ≤ attemptDelay 1000 60000 1 r ∧
        attemptDelay 1000 60000 1 r ≤ 2500) ∧
      ((32000 : ℤ) ≤ attemptDelay 1000 60000 5 r ∧
        attemptDelay 1000 60000 5 r ≤ 40000) ∧
      (∀ k, 6 ≤ k → (60000 : ℤ) ≤ attemptDelay 1000 60000 k r ∧
        attemptDelay 1000 60000 k r ≤ 75000)) := by
  refine ⟨?_, ?_, ?_⟩
  · intro base maxDelay j k hjk
    unfold backoffExpDelay
    exact min_le_min
      (Nat.mul_le_mul_left base (Nat.pow_le_pow_right (by norm_num) hjk))
      (le_refl maxDelay)
  · intro base maxDelay k
    unfold backoffExpDelay
    exact min_le_right _ _
  · intro r h0 h1
    have h2000 : backoffExpDelay 1000 60000 1 = 2000 := by
      unfold backoffExpDelay
      rw [show (1000 * 2 ^ 1 : Nat) = 2000 by norm_num]
      exact min_eq_left (by norm_num)
    have h32000 : backoffExpDelay 1000 60000 5 = 32000 := by
      unfold backoffExpDelay
      rw [show (1000 * 2 ^ 5 : Nat) = 32000 by norm_num]
      exact min_eq_left (by norm_num)
    refine ⟨⟨?_, ?_⟩, ⟨?_, ?_⟩, ?_⟩
    · have := attemptDelay_ge 1000 60000 1 r h0
      rw [h2000] at this
      exact_mod_cast this
    · refine attemptDelay_le 1000 60000 1 r h1 h0 2500 ?_
      rw [h2000]; norm_num
    · have := attemptDelay_ge 1000 60000 5 r h0
      rw [h32000] at this
      exact_mod_cast this
    · refine attemptDelay_le 1000 60000 5 r h1 h0 40000 ?_
      rw [h32000]; norm_num
    · intro k hk
      have h60000 := backoffExpDelay_ge_six k hk
      constructor
      · have := attemptDelay_ge 1000 60000 k r h0
        rw [h60000] at this
        exact_mod_cast this
      · refine attemptDelay_le 1000 60000 k r h1 h0 75000 ?_
        rw [h60000]; norm_num

theorem backoff_amended_witness :
    backoffExpDelay 1000 60000 1 ≤ backoffExpDelay 1000 60000 2 ∧
    backoffExpDelay 1000 60000 3 ≤ 60000 ∧
    ((2000 : ℤ) ≤ attemptDelay 1000 60000 1 (1/2) ∧
      attemptDelay 1000 60000 1 (1/2) ≤ 2500) ∧
    ((60000 : ℤ) ≤ attemptDelay 1000 60000 10 (1/2) ∧
      attemptDelay 1000 60000 10 (1/2) ≤ 75000) :=
  ⟨backoff_amended.1 1000 60000 1 2 (by norm_num),
   backoff_amended.2.1 1000 60000 3,
   (backoff_amended.2.2 (1/2) (by norm_num) (by norm_num)).1,
   (backoff_amended.2.2 (1/2) (by norm_num) (by norm_num)).2.2 10 (by norm_num)⟩

/-! ## SSEEventEmitter: C7 -/

theorem emitGo_delivered (throws : Nat → Bool) (ls : List Nat)
    (s : EmitterState) (acc : List Nat) :
    (emitGo throws ls s acc).2 = acc ++ ls := by
  induction ls generalizing s acc with
  | nil => simp [emitGo]
  | cons l rest ih =>
    by_cases h : throws l <;> simp [emitGo, h, ih]

theorem alGet_removeListener (s : EmitterState) (c' : String) (y : Nat)
    (c : String) :
    alGet (removeListener s c' y).2.listeners c = alGet s.listeners c ∨
    (c = c' ∧ ∃ chl, alGet s.listeners c' = some chl ∧ y ∈ chl ∧
      (alGet (removeListener s c' y).2.listeners c = none ∨
       alGet (removeListener s c' y).2.listeners c = some (chl.erase y))) := by
  unfold removeListener
  cases hg : alGet s.listeners c' with
  | none => left; rfl
  | some chl =>
    simp only []
    by_cases hy : y ∈ chl
    · rw [if_pos hy]
      simp only []
      by_cases he : (chl.erase y).isEmpty
      · rw [if_pos he]
        by_cases hc : c = c'
        · right
          refine ⟨hc, chl, rfl, hy, Or.inl ?_⟩
          subst hc
          rw [alGet_alRemove]
          simp
        · left
          rw [alGet_alRemove]
          rw [if_neg (fun hcc => hc hcc.symm)]
      · rw [if_neg he]
        by_cases hc : c = c'
        · right
          refine ⟨hc, chl, rfl, hy, Or.inr ?_⟩
          subst hc
          rw [alGet_alSet]
          simp
        · left
          rw [alGet_alSet]
          rw [if_neg (fun hcc => hc hcc.symm)]
    · rw [if_neg hy]
      left; rfl

theorem removeListener_nodup_sse {s : EmitterState} {c' : String} {y : Nat}
    (h : ∀ cur, alGet s.listeners "sse" = some cur → cur.Nodup) :
    ∀ cur, alGet (removeListener s c' y).2.listeners "sse" = some cur →
      cur.Nodup := by
  intro cur hcur
  rcases alGet_removeListener s c' y "sse" with heq | ⟨hceq, chl, hchl, -, hres⟩
  · rw [heq] at hcur
    exact h cur hcur
  · subst hceq
    rcases hres with hnone | hsome
    · rw [hnone] at hcur; cases hcur
    · rw [hsome] at hcur
      cases hcur
      exact (h chl hchl).erase y

theorem removeListener_not_mem_sse {s : EmitterState} {c' : String}
    {x y : Nat}
    (h : ∀ cur, alGet s.listeners "sse" = some cur → x ∉ cur) :
    ∀ cur, alGet (removeListener s c' y).2.listeners "sse" = some cur →
      x ∉ cur := by
  intro cur hcur
  rcases alGet_removeListener s c' y "sse" with heq | ⟨hceq, chl, hchl, -, hres⟩
  · rw [heq] at hcur
    exact h cur hcur
  · subst hceq
    rcases hres with hnone | hsome
    · rw [hnone] at hcur; cases hcur
    · rw [hsome] at hcur
      cases hcur
      intro hx
      exact h chl hchl (List.mem_of_mem_erase hx)

theorem removeListener_removes_self {s : EmitterState} {y : Nat}
    (hnd : ∀ cur, alGet s.listeners "sse" = some cur → cur.Nodup) :
    ∀ cur, alGet (removeListener s "sse" y).2.listeners "sse" = some cur →
      y ∉ cur := by
  intro cur hcur
  rcases alGet_removeListener s "sse" y "sse" with heq | ⟨-, chl, hchl, -, hres⟩
  · -- the state is unchanged only when y was absent from the channel (or
    -- the channel had no set), so y cannot be in the looked-up set
    unfold removeListener at hcur
    cases hg : alGet s.listeners "sse" with
    | none =>
      rw [hg] at hcur
      simp only [] at hcur
      rw [hg] at hcur
      cases hcur
    | some chl =>
      rw [hg] at hcur
      simp only [] at hcur
      by_cases hy : y ∈ chl
      · rw [if_pos hy] at hcur
        simp only [] at hcur
        by_cases he : (chl.erase y).isEmpty
        · rw [if_pos he] at hcur
          rw [alGet_alRemove] at hcur
          simp at hcur
        · rw [if_neg he] at hcur
          rw [alGet_alSet] at hcur
          simp only [if_pos rfl] at hcur
          cases hcur
          exact fun hx => (((hnd chl hg).mem_erase_iff).mp hx).1 rfl
      · rw [if_neg hy] at hcur
        simp only [] at hcur
        rw [hg] at hcur
        injection hcur with hc
        subst hc
        exact hy
  · rcases hres with hnone | hsome
    · rw [hnone] at hcur; cases hcur
    · rw [hsome] at hcur
      cases hcur
      exact fun hx => (((hnd chl hchl).mem_erase_iff).mp hx).1 rfl

theorem removeListener_keeps_sse {s : EmitterState} {c' : String} {y l2 : Nat}
    (hneq : l2 ≠ y)
    (h : ∃ cur, alGet s.listeners "sse" = some cur ∧ l2 ∈ cur) :
    ∃ cur, alGet (removeListener s c' y).2.listeners "sse" = some cur ∧
      l2 ∈ cur := by
  obtain ⟨cur, hcur, hl2⟩ := h
  rcases alGet_removeListener s c' y "sse" with heq | ⟨hceq, chl, hchl, -, hres⟩
  · exact ⟨cur, heq.trans hcur, hl2⟩
  · subst hceq
    have hchleq : chl = cur := Option.some_injective _ (hchl.symm.trans hcur)
    subst hchleq
    have hl2e : l2 ∈ chl.erase y := (List.mem_erase_of_ne hneq).mpr hl2
    rcases hres with hnone | hsome
    · -- the channel entry is dropped only when the erase result is empty,
      -- impossible since l2 is in it
      exfalso
      unfold removeListener at hnone
      rw [hchl] at hnone
      simp only [] at hnone
      by_cases hy : y ∈ chl
      · rw [if_pos hy] at hnone
        simp only [] at hnone
        by_cases he : (chl.erase y).isEmpty
        · rw [List.isEmpty_iff] at he
          rw [he] at hl2e
          cases hl2e
        · rw [if_neg he] at hnone
          rw [alGet_alSet] at hnone
          simp at hnone
      · rw [if_neg hy] at hnone
        rw [hchl] at hnone
        cases hnone
    · exact ⟨chl.erase y, hsome, hl2e⟩

theorem emitGo_not_mem (throws : Nat → Bool) (l1 : Nat)
    (hthrow : throws l1 = true) :
    ∀ (ls : List Nat) (s : EmitterState) (acc : List Nat),
      (∀ cur, alGet s.listeners "sse" = some cur → cur.Nodup) →
      (l1 ∈ ls ∨ (∀ cur, alGet s.listeners "sse" = some cur → l1 ∉ cur)) →
      ∀ cur, alGet (emitGo throws ls s acc).1.listeners "sse" = some cur →
        l1 ∉ cur := by
  intro ls
  induction ls with
  | nil =>
    intro s acc hnd hin cur hcur
    rcases hin with hin | hout
    · cases hin
    · exact hout cur hcur
  | cons l rest ih =>
    intro s acc hnd hin cur hcur
    by_cases h : throws l
    · rw [show emitGo throws (l :: rest) s acc =
          emitGo throws rest (removeListener s "sse" l).2 (acc ++ [l]) by
        simp only [emitGo]; rw [if_pos h]] at hcur
      refine ih (removeListener s "sse" l).2 (acc ++ [l])
        (removeListener_nodup_sse hnd) ?_ cur hcur
      rcases hin with hin | hout
      · rcases List.mem_cons.mp hin with heq | hrest
        · subst heq
          exact Or.inr (removeListener_removes_self hnd)
        · exact Or.inl hrest
      · exact Or.inr (removeListener_not_mem_sse hout)
    · rw [show emitGo throws (l :: rest) s acc =
          emitGo throws rest s (acc ++ [l]) by
        simp only [emitGo]; rw [if_neg h]] at hcur
      refine ih s (acc ++ [l]) hnd ?_ cur hcur
      rcases hin with hin | hout
      · rcases List.mem_cons.mp hin with heq | hrest
        · exfalso
          subst heq
          rw [hthrow] at h
          exact h rfl
        · exact Or.inl hrest
      · exact Or.inr hout

theorem emitGo_keeps (throws : Nat → Bool) (l2 : Nat)
    (ht2 : throws l2 = false) :
    ∀ (ls : List Nat) (s : EmitterState) (acc : List Nat),
      (∃ cur, alGet s.listeners "sse" = some cur ∧ l2 ∈ cur) →
      ∃ cur, alGet (emitGo throws ls s acc).1.listeners "sse" = some cur ∧
        l2 ∈ cur := by
  intro ls
  induction ls with
  | nil =>
    intro s acc h
    exact h
  | cons l rest ih =>
    intro s acc h
    by_cases hl : throws l
    · rw [show emitGo throws (l :: rest) s acc =
          emitGo throws rest (removeListener s "sse" l).2 (acc ++ [l]) by
        simp only [emitGo]; rw [if_pos hl]]
      apply ih
      have hneq : l2 ≠ l := by
        intro he
        rw [← he, ht2] at hl
        simp at hl
      exact removeListener_keeps_sse hneq h
    · rw [show emitGo throws (l :: rest) s acc =
          emitGo throws rest s (acc ++ [l]) by
        simp only [emitGo]; rw [if_neg hl]]
      exact ih s (acc ++ [l]) h

theorem emit_eq (throws : Nat → Bool) (s : EmitterState) (ls : List Nat)
    (hch : alGet s.listeners "sse" = some ls) (hlen : ls.length > 0) :
    emit throws s = emitGo throws ls s [] := by
  unfold emit
  rw [hch]
  simp only []
  rw [if_pos hlen]

/-- C7: when the broadcast channel holds a listener L1 that throws and a
listener L2 that does not, `emit` still hands the event to L2 in the same
call (delivery is over a snapshot copy and the throw is caught), removes
L1 from the channel, and hands every subsequent `emit` to L2 as well. -/
theorem emit_isolates_throwing_listener
    (s : EmitterState) (throws : Nat → Bool) (ls : List Nat) (l1 l2 : Nat)
    (hch : alGet s.listeners "sse" = some ls)
    (hnd : ∀ cur, alGet s.listeners "sse" = some cur → cur.Nodup)
    (h1 : l1 ∈ ls) (h2 : l2 ∈ ls)
    (ht1 : throws l1 = true) (ht2 : throws l2 = false) :
    l2 ∈ (emit throws s).2 ∧
    (∀ cur, alGet (emit throws s).1.listeners "sse" = some cur → l1 ∉ cur) ∧
    l2 ∈ (emit throws (emit throws s).1).2 := by
  have hlen : ls.length > 0 := List.length_pos.mpr (List.ne_nil_of_mem h1)
  have hemit : emit throws s = emitGo throws ls s [] :=
    emit_eq throws s ls hch hlen
  refine ⟨?_, ?_, ?_⟩
  · rw [hemit, emitGo_delivered]
    simpa using h2
  · rw [hemit]
    exact emitGo_not_mem throws l1 ht1 ls s [] hnd (Or.inl h1)
  · have hkeep := emitGo_keeps throws l2 ht2 ls s [] ⟨ls, hch, h2⟩
    rw [← hemit] at hkeep
    obtain ⟨cur, hcur, hl2⟩ := hkeep
    have hlen2 : cur.length > 0 := List.length_pos.mpr (List.ne_nil_of_mem hl2)
    rw [emit_eq throws (emit throws s).1 cur hcur hlen2, emitGo_delivered]
    simpa using hl2

theorem emit_isolates_throwing_listener_witness :
    2 ∈ (emit (fun n => decide (n = 1))
        (addListener (addListener initEmitter "sse" 1) "sse" 2)).2 ∧
    (∀ cur, alGet (emit (fun n => decide (n = 1))
        (addListener (addListener initEmitter "sse" 1) "sse" 2)).1.listeners
        "sse" = some cur → 1 ∉ cur) ∧
    2 ∈ (emit (fun n => decide (n = 1))
        (emit (fun n => decide (n = 1))
          (addListener (addListener initEmitter "sse" 1) "sse" 2)).1).2 :=
  emit_isolates_throwing_listener
    (addListener (addListener initEmitter "sse" 1) "sse" 2)
    (fun n => decide (n = 1)) [1, 2] 1 2 rfl
    (fun cur hcur => by
      rw [show alGet (addListener (addListener initEmitter "sse" 1)
          "sse" 2).listeners "sse" = some [1, 2] from rfl] at hcur
      injection hcur with hc
      subst hc
      decide)
    (by decide) (by decide) rfl rfl

/-! ## MessageQueue retention: C5 -/

theorem jsSliceLast_absorb {α : Type} (n : Nat) (hn : 1 ≤ n) (l : List α)
    (x : α) (hfull : l.length ≥ n) :
    jsSliceLast n (jsSliceLast n l ++ [x]) = jsSliceLast n (l ++ [x]) := by
  unfold jsSliceLast
  rw [if_neg (by omega), if_neg (by omega), if_neg (by omega)]
  have hlen : (l.drop (l.length - n)).length = n := by
    rw [List.length_drop]
    omega
  rw [List.length_append, hlen]
  rw [List.length_append]
  simp only [List.length_cons, List.length_nil]
  have h1 : n + 1 - n = 1 := by omega
  have h2 : l.length + 1 - n = (l.length - n) + 1 := by omega
  rw [h1, h2]
  rw [← List.drop_drop]
  rw [show List.drop (l.length - n) (l ++ [x]) =
      List.drop (l.length - n) l ++ [x] from
    List.drop_append_of_le_length (by omega)]

theorem enqueueAll_cons (cfg : MQConfig) (c : EnqueueCall)
    (rest : List EnqueueCall) (s : MQState) :
    enqueueAll cfg (c :: rest) s =
      enqueueAll cfg rest (enqueue cfg s c.roomId c.event c.data c.now).2 := by
  rfl

theorem enqueue_room_queue (cfg : MQConfig) (s : MQState)
    (roomId event data : String) (now : Nat) (r : String)
    (hmax : 1 ≤ cfg.maxSize) (base : List QueuedMessage)
    (hbase : (alGet s.queues r).getD [] = jsSliceLast cfg.maxSize base) :
    (alGet (enqueue cfg s roomId event data now).2.queues r).getD [] =
      jsSliceLast cfg.maxSize
        (base ++ (if roomId = r then
          [{ id := s.nextId, event := event, data := data,
             timestamp := now, roomId := roomId }] else [])) := by
  simp only [enqueue]
  rw [alGet_alSet]
  by_cases hr : roomId = r
  · subst hr
    rw [if_pos rfl, if_pos rfl]
    simp only [Option.getD_some]
    rw [hbase]
    by_cases hfull :
        (jsSliceLast cfg.maxSize base ++
          [({ id := s.nextId, event := event, data := data,
              timestamp := now, roomId := roomId } : QueuedMessage)]).length >
          cfg.maxSize
    · rw [if_pos hfull]
      have hblen : (jsSliceLast cfg.maxSize base).length =
          min cfg.maxSize base.length := jsSliceLast_length _ _ hmax
      have hbfull : base.length ≥ cfg.maxSize := by
        rw [List.length_append] at hfull
        simp only [List.length_cons, List.length_nil] at hfull
        omega
      exact jsSliceLast_absorb cfg.maxSize hmax base _ hbfull
    · rw [if_neg hfull]
      have hblen : (jsSliceLast cfg.maxSize base).length =
          min cfg.maxSize base.length := jsSliceLast_length _ _ hmax
      have hsmall : base.length < cfg.maxSize := by
        rw [List.length_append] at hfull
        simp only [List.length_cons, List.length_nil] at hfull
        omega
      have hbid : jsSliceLast cfg.maxSize base = base :=
        jsSliceLast_of_le _ _ (by omega)
      rw [hbid]
      rw [jsSliceLast_of_le _ _ (by
        rw [List.length_append]
        simp only [List.length_cons, List.length_nil]
        omega)]
  · rw [if_neg hr, if_neg hr]
    rw [List.append_nil]
    exact hbase

theorem enqueueAll_room_queue (cfg : MQConfig) (hmax : 1 ≤ cfg.maxSize) :
    ∀ (calls : List EnqueueCall) (s : MQState) (r : String)
      (base : List QueuedMessage),
      (alGet s.queues r).getD [] = jsSliceLast cfg.maxSize base →
      (alGet (enqueueAll cfg calls s).queues r).getD [] =
        jsSliceLast cfg.maxSize (base ++ roomHistory r calls s.nextId) := by
  intro calls
  induction calls with
  | nil =>
    intro s r base hbase
    simp only [enqueueAll, List.foldl_nil, roomHistory, List.append_nil]
    exact hbase
  | cons c rest ih =>
    intro s r base hbase
    rw [enqueueAll_cons]
    have hstep := enqueue_room_queue cfg s c.roomId c.event c.data c.now r
      hmax base hbase
    have hnext : (enqueue cfg s c.roomId c.event c.data c.now).2.nextId =
        s.nextId + 1 := rfl
    have := ih (enqueue cfg s c.roomId c.event c.data c.now).2 r
      (base ++ (if c.roomId = r then
        [{ id := s.nextId, event := c.event, data := c.data,
           timestamp := c.now, roomId := c.roomId }] else [])) hstep
    rw [this, hnext]
    rw [List.append_assoc]
    rfl

/-- C5: starting from the empty queue state, after any sequence of
`enqueue` calls every room's catch-up log equals the `slice(-maxSize)`
recent tail of that room's untrimmed insertion history — hence the log
never exceeds `maxSize` entries at any observation point (the sequence is
arbitrary, so this holds after each enqueue), the retained entries are
exactly the most recent `maxSize` in their original insertion order, and
once more than `maxSize` entries were inserted exactly `maxSize` remain. -/
theorem enqueue_bounded_recent (cfg : MQConfig) (calls : List EnqueueCall)
    (r : String) (hmax : 1 ≤ cfg.maxSize) :
    (alGet (enqueueAll cfg calls initMQ).queues r).getD [] =
      jsSliceLast cfg.maxSize (roomHistory r calls 0) ∧
    ((alGet (enqueueAll cfg calls initMQ).queues r).getD []).length ≤
      cfg.maxSize ∧
    (cfg.maxSize ≤ (roomHistory r calls 0).length →
      ((alGet (enqueueAll cfg calls initMQ).queues r).getD []).length =
        cfg.maxSize) := by
  have h := enqueueAll_room_queue cfg hmax calls initMQ r []
    (by simp [initMQ, alGet, jsSliceLast])
  simp only [List.nil_append] at h
  have hinit : (initMQ.nextId : Nat) = 0 := rfl
  rw [hinit] at h
  refine ⟨h, ?_, ?_⟩
  · rw [h, jsSliceLast_length _ _ hmax]
    omega
  · intro hge
    rw [h, jsSliceLast_length _ _ hmax]
    omega

theorem enqueue_bounded_recent_witness :
    ((alGet (enqueueAll ({ ttl := 300000, maxSize := 2 })
        [⟨"room1", "chatMessage", "a", 1⟩, ⟨"room1", "chatMessage", "b", 2⟩,
         ⟨"room1", "chatMessage", "c", 3⟩] initMQ).queues "room1").getD [] =
      jsSliceLast 2 (roomHistory "room1"
        [⟨"room1", "chatMessage", "a", 1⟩, ⟨"room1", "chatMessage", "b", 2⟩,
         ⟨"room1", "chatMessage", "c", 3⟩] 0)) ∧
    ((alGet (enqueueAll ({ ttl := 300000, maxSize := 2 })
        [⟨"room1", "chatMessage", "a", 1⟩, ⟨"room1", "chatMessage", "b", 2⟩,
         ⟨"room1", "chatMessage", "c", 3⟩] initMQ).queues "room1").getD
      []).length = 2 := by
  have h := enqueue_bounded_recent ({ ttl := 300000, maxSize := 2 })
    [⟨"room1", "chatMessage", "a", 1⟩, ⟨"room1", "chatMessage", "b", 2⟩,
     ⟨"room1", "chatMessage", "c", 3⟩] "room1" (by norm_num)
  exact ⟨h.1, h.2.2 (by decide)⟩

/-! ## Connection registry: C4 -/

theorem alGet_functional {κ α : Type} [DecidableEq κ] {m : List (κ × α)}
    {k : κ} {a b : α} (h1 : alGet m k = some a) (h2 : alGet m k = some b) :
    a = b :=
  Option.some_injective _ (h1.symm.trans h2)

/-- Registry coherence invariant: the id counter is ahead of every stored
connection id, every tracked user set is exactly the non-empty
duplicate-free set of that user's connection ids, and an untracked user
owns no connection. -/
structure RegInv (s : ManagerState) : Prop where
  fresh : ∀ cid, s.nextConnId ≤ cid → alGet s.connections cid = none
  track : ∀ u l, alGet s.userConnections u = some l →
    l ≠ [] ∧ l.Nodup ∧
    (∀ cid, cid ∈ l ↔
      ∃ c, alGet s.connections cid = some c ∧ c.userId = u)
  untracked : ∀ u, alGet s.userConnections u = none →
    ∀ cid c, alGet s.connections cid = some c → c.userId ≠ u

theorem regInv_init : RegInv initManager := by
  refine ⟨?_, ?_, ?_⟩
  · intro cid hcid
    rfl
  · intro u l hl
    cases hl
  · intro u hu cid c hc
    cases hc

theorem addConnection_inv (s : ManagerState) (u r : String) (now : Nat)
    (h : RegInv s) : RegInv (addConnection s u r now).2 := by
  have hfreshnone : alGet s.connections s.nextConnId = none :=
    h.fresh s.nextConnId (le_refl _)
  have hq : s.nextConnId ∉ (alGet s.userConnections u).getD [] := by
    cases huc : alGet s.userConnections u with
    | none => simp
    | some lu =>
      simp only [Option.getD_some]
      intro hmem
      obtain ⟨c, hc, -⟩ := (((h.track u lu huc).2.2) s.nextConnId).mp hmem
      rw [hfreshnone] at hc
      cases hc
  have hstate : (addConnection s u r now).2 =
      { connections := alSet s.connections s.nextConnId
          ({ connectionId := s.nextConnId, userId := u, connectedAt := now,
             lastActivity := now, lastHeartbeat := now, roomId := r,
             controller := true }),
        userConnections := alSet s.userConnections u
          ((alGet s.userConnections u).getD [] ++ [s.nextConnId]),
        nextConnId := s.nextConnId + 1 } := by
    simp only [addConnection]
    rw [if_neg hq]
  rw [hstate]
  refine ⟨?_, ?_, ?_⟩
  · intro cid hcid
    simp only [] at hcid ⊢
    rw [alGet_alSet]
    rw [if_neg (by omega : ¬(s.nextConnId = cid))]
    exact h.fresh cid (by omega)
  · intro u' l' hl'
    simp only [] at hl' ⊢
    rw [alGet_alSet] at hl'
    by_cases huu : u = u'
    · subst huu
      rw [if_pos rfl] at hl'
      injection hl' with hl'
      subst hl'
      refine ⟨by simp, ?_, ?_⟩
      · cases huc : alGet s.userConnections u with
        | none => simp
        | some lu =>
          have htr := h.track u lu huc
          have hqlu : s.nextConnId ∉ lu := by
            rw [huc] at hq
            simpa using hq
          simp only [Option.getD_some]
          rw [List.nodup_append]
          refine ⟨htr.2.1, List.nodup_singleton _, ?_⟩
          intro a ha hb
          rw [List.mem_singleton] at hb
          subst hb
          exact hqlu ha
      · intro cid
        rw [alGet_alSet]
        constructor
        · intro hmem
          rw [List.mem_append, List.mem_singleton] at hmem
          rcases hmem with hq' | hcid
          · cases huc : alGet s.userConnections u with
            | none =>
              rw [huc] at hq'
              simp at hq'
            | some lu =>
              rw [huc] at hq'
              simp only [Option.getD_some] at hq'
              obtain ⟨c, hc, hcu⟩ := ((h.track u lu huc).2.2 cid).mp hq'
              have hne : ¬(s.nextConnId = cid) := by
                intro he
                rw [← he, hfreshnone] at hc
                cases hc
              exact ⟨c, by rw [if_neg hne]; exact hc, hcu⟩
          · subst hcid
            refine ⟨{ connectionId := s.nextConnId, userId := u,
                      connectedAt := now, lastActivity := now,
                      lastHeartbeat := now, roomId := r,
                      controller := true }, ?_, rfl⟩
            rw [if_pos rfl]
        · rintro ⟨c, hc, hcu⟩
          rw [List.mem_append, List.mem_singleton]
          by_cases hcid : s.nextConnId = cid
          · right
            exact hcid.symm
          · rw [if_neg hcid] at hc
            left
            cases huc : alGet s.userConnections u with
            | none => exact absurd hcu (h.untracked u huc cid c hc)
            | some lu =>
              simp only [Option.getD_some]
              exact ((h.track u lu huc).2.2 cid).mpr ⟨c, hc, hcu⟩
    · rw [if_neg huu] at hl'
      have htr := h.track u' l' hl'
      refine ⟨htr.1, htr.2.1, ?_⟩
      intro cid
      rw [alGet_alSet]
      constructor
      · intro hmem
        obtain ⟨c, hc, hcu⟩ := (htr.2.2 cid).mp hmem
        have hne : ¬(s.nextConnId = cid) := by
          intro he
          rw [← he, hfreshnone] at hc
          cases hc
        exact ⟨c, by rw [if_neg hne]; exact hc, hcu⟩
      · rintro ⟨c, hc, hcu⟩
        by_cases hcid : s.nextConnId = cid
        · rw [if_pos hcid] at hc
          injection hc with hc
          subst hc
          simp only [] at hcu
          exact absurd hcu huu
        · rw [if_neg hcid] at hc
          exact (htr.2.2 cid).mpr ⟨c, hc, hcu⟩
  · intro u' hu'
    simp only [] at hu'
    rw [alGet_alSet] at hu'
    by_cases huu : u = u'
    · rw [if_pos huu] at hu'
      cases hu'
    · rw [if_neg huu] at hu'
      intro cid c hc
      simp only [] at hc
      rw [alGet_alSet] at hc
      by_cases hcid : s.nextConnId = cid
      · rw [if_pos hcid] at hc
        injection hc with hc
        subst hc
        exact huu
      · rw [if_neg hcid] at hc
        exact h.untracked u' hu' cid c hc

theorem removeConnection_inv (s : ManagerState) (cid : Nat)
    (h : RegInv s) : RegInv (removeConnection s cid).2 := by
  unfold removeConnection
  cases hc : alGet s.connections cid with
  | none => exact h
  | some conn =>
    simp only []
    cases huc : alGet s.userConnections conn.userId with
    | none =>
      exact absurd rfl (h.untracked conn.userId huc cid conn hc)
    | some userConns =>
      simp only []
      have htr := h.track conn.userId userConns huc
      have hcidmem : cid ∈ userConns := (htr.2.2 cid).mpr ⟨conn, hc, rfl⟩
      by_cases hemp : (userConns.erase cid).isEmpty
      · rw [if_pos hemp]
        have hall : ∀ x ∈ userConns, x = cid := by
          intro x hx
          by_contra hne
          have hxe : x ∈ userConns.erase cid :=
            (List.mem_erase_of_ne hne).mpr hx
          rw [List.isEmpty_iff.mp hemp] at hxe
          cases hxe
        refine ⟨?_, ?_, ?_⟩
        · intro cid' hcid'
          simp only [] at hcid' ⊢
          rw [alGet_alRemove]
          by_cases he : cid = cid'
          · rw [if_pos he]
          · rw [if_neg he]
            exact h.fresh cid' hcid'
        · intro u' l' hl'
          simp only [] at hl' ⊢
          rw [alGet_alRemove] at hl'
          by_cases hu' : conn.userId = u'
          · rw [if_pos hu'] at hl'
            cases hl'
          · rw [if_neg hu'] at hl'
            have htr' := h.track u' l' hl'
            refine ⟨htr'.1, htr'.2.1, ?_⟩
            intro cid'
            rw [alGet_alRemove]
            constructor
            · intro hmem
              obtain ⟨c, hcold, hcu⟩ := (htr'.2.2 cid').mp hmem
              have hne : ¬(cid = cid') := by
                intro he
                subst he
                have hcc : c = conn := alGet_functional hcold hc
                subst hcc
                exact hu' hcu
              exact ⟨c, by rw [if_neg hne]; exact hcold, hcu⟩
            · rintro ⟨c, hcnew, hcu⟩
              by_cases hne : cid = cid'
              · rw [if_pos hne] at hcnew
                cases hcnew
              · rw [if_neg hne] at hcnew
                exact (htr'.2.2 cid').mpr ⟨c, hcnew, hcu⟩
        · intro u' hu'
          simp only [] at hu'
          rw [alGet_alRemove] at hu'
          intro cid' c hcnew
          simp only [] at hcnew
          rw [alGet_alRemove] at hcnew
          by_cases hne : cid = cid'
          · rw [if_pos hne] at hcnew
            cases hcnew
          · rw [if_neg hne] at hcnew
            by_cases hu'' : conn.userId = u'
            · subst hu''
              intro hcu
              have hmem : cid' ∈ userConns :=
                (htr.2.2 cid').mpr ⟨c, hcnew, hcu⟩
              exact hne (hall cid' hmem).symm
            · rw [if_neg hu''] at hu'
              exact h.untracked u' hu' cid' c hcnew
      · rw [if_neg hemp]
        have hrne : userConns.erase cid ≠ [] := by
          intro he
          rw [← List.isEmpty_iff] at he
          exact hemp he
        refine ⟨?_, ?_, ?_⟩
        · intro cid' hcid'
          simp only [] at hcid' ⊢
          rw [alGet_alRemove]
          by_cases he : cid = cid'
          · rw [if_pos he]
          · rw [if_neg he]
            exact h.fresh cid' hcid'
        · intro u' l' hl'
          simp only [] at hl' ⊢
          rw [alGet_alSet] at hl'
          by_cases hu' : conn.userId = u'
          · rw [if_pos hu'] at hl'
            injection hl' with hl'
            subst hl'
            refine ⟨hrne, htr.2.1.erase cid, ?_⟩
            intro cid'
            rw [alGet_alRemove]
            constructor
            · intro hmem
              obtain ⟨hne', hmemu⟩ := htr.2.1.mem_erase_iff.mp hmem
              obtain ⟨c, hcold, hcu⟩ := (htr.2.2 cid').mp hmemu
              refine ⟨c, ?_, ?_⟩
              · rw [if_neg (fun he => hne' he.symm)]
                exact hcold
              · rw [hcu, hu']
            · rintro ⟨c, hcnew, hcu⟩
              by_cases hne : cid = cid'
              · rw [if_pos hne] at hcnew
                cases hcnew
              · rw [if_neg hne] at hcnew
                rw [htr.2.1.mem_erase_iff]
                refine ⟨fun he => hne he.symm, ?_⟩
                exact (htr.2.2 cid').mpr ⟨c, hcnew, by rw [hcu, hu']⟩
          · rw [if_neg hu'] at hl'
            have htr' := h.track u' l' hl'
            refine ⟨htr'.1, htr'.2.1, ?_⟩
            intro cid'
            rw [alGet_alRemove]
            constructor
            · intro hmem
              obtain ⟨c, hcold, hcu⟩ := (htr'.2.2 cid').mp hmem
              have hne : ¬(cid = cid') := by
                intro he
                subst he
                have hcc : c = conn := alGet_functional hcold hc
                subst hcc
                exact hu' hcu
              exact ⟨c, by rw [if_neg hne]; exact hcold, hcu⟩
            · rintro ⟨c, hcnew, hcu⟩
              by_cases hne : cid = cid'
              · rw [if_pos hne] at hcnew
                cases hcnew
              · rw [if_neg hne] at hcnew
                exact (htr'.2.2 cid').mpr ⟨c, hcnew, hcu⟩
        · intro u' hu'
          simp only [] at hu'
          rw [alGet_alSet] at hu'
          by_cases hu'' : conn.userId = u'
          · rw [if_pos hu''] at hu'
            cases hu'
          · rw [if_neg hu''] at hu'
            intro cid' c hcnew
            simp only [] at hcnew
            rw [alGet_alRemove] at hcnew
            by_cases hne : cid = cid'
            · rw [if_pos hne] at hcnew
              cases hcnew
            · rw [if_neg hne] at hcnew
              exact h.untracked u' hu' cid' c hcnew

theorem removeConnection_foldl_inv (l : List Nat) (s : ManagerState)
    (h : RegInv s) :
    RegInv (l.foldl (fun st connId => (removeConnection st connId).2) s) := by
  induction l generalizing s with
  | nil => exact h
  | cons a t ih => exact ih _ (removeConnection_inv s a h)

theorem cleanupStale_inv (s : ManagerState) (now timeout : Nat)
    (h : RegInv s) : RegInv (cleanupStaleConnections s now timeout) :=
  removeConnection_foldl_inv _ s h

theorem applyRegOp_inv (s : ManagerState) (op : RegOp) (h : RegInv s) :
    RegInv (applyRegOp s op) := by
  cases op with
  | add u r now => exact addConnection_inv s u r now h
  | remove cid => exact removeConnection_inv s cid h
  | sweep now timeout => exact cleanupStale_inv s now timeout h

theorem applyRegOps_inv (ops : List RegOp) (s : ManagerState)
    (h : RegInv s) : RegInv (applyRegOps ops s) := by
  induction ops generalizing s with
  | nil => exact h
  | cons op rest ih => exact ih _ (applyRegOp_inv s op h)

/-- C4: after any finite sequence of `addConnection`/`removeConnection`
calls — stale-sweep removals included, since the sweep removes through the
same path — a user has an entry in the user-to-connection-set map exactly
when it owns at least one connection in the connection table, and every
stored set is non-empty. -/
theorem registry_mirror_invariant (ops : List RegOp) :
    (∀ u, (alGet (applyRegOps ops initManager).userConnections u).isSome ↔
      ∃ cid c, alGet (applyRegOps ops initManager).connections cid = some c ∧
        c.userId = u) ∧
    (∀ u l, alGet (applyRegOps ops initManager).userConnections u = some l →
      l ≠ []) := by
  have h := applyRegOps_inv ops initManager regInv_init
  constructor
  · intro u
    constructor
    · intro hsome
      cases hl : alGet (applyRegOps ops initManager).userConnections u with
      | none =>
        rw [hl] at hsome
        cases hsome
      | some l =>
        have htr := h.track u l hl
        obtain ⟨x, hx⟩ := List.exists_mem_of_ne_nil l htr.1
        obtain ⟨c, hc, hcu⟩ := (htr.2.2 x).mp hx
        exact ⟨x, c, hc, hcu⟩
    · rintro ⟨cid, c, hc, hcu⟩
      cases hl : alGet (applyRegOps ops initManager).userConnections u with
      | none => exact absurd hcu (h.untracked u hl cid c hc)
      | some l => rfl
  · intro u l hl
    exact (h.track u l hl).1

theorem registry_mirror_invariant_witness :
    ((alGet (applyRegOps [RegOp.add "alice" "room1" 5]
        initManager).userConnections "alice").isSome ↔
      ∃ cid c, alGet (applyRegOps [RegOp.add "alice" "room1" 5]
          initManager).connections cid = some c ∧ c.userId = "alice") ∧
    ([0] : List Nat) ≠ [] :=
  ⟨(registry_mirror_invariant [RegOp.add "alice" "room1" 5]).1 "alice",
   (registry_mirror_invariant [RegOp.add "alice" "room1" 5]).2 "alice" [0] rfl⟩

/-! ## Emitter listener count: C10 -/

theorem alGet_eq_none_iff {κ α : Type} [DecidableEq κ]
    (m : List (κ × α)) (k : κ) :
    alGet m k = none ↔ ∀ p ∈ m, p.1 ≠ k := by
  induction m with
  | nil => simp [alGet]
  | cons p rest ih =>
    obtain ⟨pk, pv⟩ := p
    constructor
    · intro h q hq
      unfold alGet at h
      by_cases hpk : pk = k
      · rw [if_pos hpk] at h
        cases h
      · rw [if_neg hpk] at h
        rcases List.mem_cons.mp hq with he | hm
        · rw [he]
          exact hpk
        · exact (ih.mp h) q hm
    · intro h
      unfold alGet
      rw [if_neg (h (pk, pv) (List.mem_cons_self _ _))]
      exact ih.mpr (fun q hq => h q (List.mem_cons_of_mem _ hq))

theorem alRemove_eq_self {κ α : Type} [DecidableEq κ] (m : List (κ × α))
    (k : κ) (h : ∀ p ∈ m, p.1 ≠ k) : alRemove m k = m := by
  unfold alRemove
  apply List.filter_eq_self.mpr
  intro p hp
  simpa using h p hp

theorem sumSizes_cons (p : String × List Nat) (m : List (String × List Nat)) :
    sumSizes (p :: m) = (p.2.length : Int) + sumSizes m := by
  simp [sumSizes]

theorem sumSizes_alSet_present (m : List (String × List Nat)) (k : String)
    (v v' : List Nat) (h : alGet m k = some v) :
    sumSizes (alSet m k v') = sumSizes m - v.length + v'.length := by
  induction m with
  | nil => cases h
  | cons p rest ih =>
    obtain ⟨pk, pv⟩ := p
    unfold alGet at h
    by_cases hpk : pk = k
    · rw [if_pos hpk] at h
      injection h with h
      subst h
      subst hpk
      rw [show alSet ((pk, pv) :: rest) pk v' = (pk, v') :: rest by
        simp [alSet]]
      rw [sumSizes_cons, sumSizes_cons]
      simp only []
      omega
    · rw [if_neg hpk] at h
      rw [show alSet ((pk, pv) :: rest) k v' = (pk, pv) :: alSet rest k v' by
        simp [alSet, hpk]]
      rw [sumSizes_cons, sumSizes_cons, ih h]
      simp only []
      omega

theorem sumSizes_alSet_absent (m : List (String × List Nat)) (k : String)
    (v' : List Nat) (h : alGet m k = none) :
    sumSizes (alSet m k v') = sumSizes m + v'.length := by
  induction m with
  | nil =>
    simp [alSet, sumSizes]
  | cons p rest ih =>
    obtain ⟨pk, pv⟩ := p
    unfold alGet at h
    by_cases hpk : pk = k
    · rw [if_pos hpk] at h
      cases h
    · rw [if_neg hpk] at h
      rw [show alSet ((pk, pv) :: rest) k v' = (pk, pv) :: alSet rest k v' by
        simp [alSet, hpk]]
      rw [sumSizes_cons, sumSizes_cons, ih h]
      simp only []
      omega

theorem sumSizes_alRemove (m : List (String × List Nat)) (k : String)
    (v : List Nat) (h : alGet m k = some v)
    (hnd : (m.map Prod.fst).Nodup) :
    sumSizes (alRemove m k) = sumSizes m - v.length := by
  induction m with
  | nil => cases h
  | cons p rest ih =>
    obtain ⟨pk, pv⟩ := p
    unfold alGet at h
    rw [List.map_cons] at hnd
    obtain ⟨hpknot, hrestnd⟩ := List.nodup_cons.mp hnd
    by_cases hpk : pk = k
    · rw [if_pos hpk] at h
      injection h with h
      subst h
      subst hpk
      have hrest : alRemove rest pk = rest := by
        apply alRemove_eq_self
        intro q hq he
        apply hpknot
        rw [← he]
        exact List.mem_map.mpr ⟨q, hq, rfl⟩
      rw [show alRemove ((pk, pv) :: rest) pk = alRemove rest pk by
        simp [alRemove, List.filter_cons]]
      rw [hrest, sumSizes_cons]
      simp only []
      omega
    · rw [if_neg hpk] at h
      rw [show alRemove ((pk, pv) :: rest) k = (pk, pv) :: alRemove rest k by
        simp [alRemove, List.filter_cons, hpk]]
      rw [sumSizes_cons, sumSizes_cons, ih h hrestnd]
      simp only []
      omega

theorem keys_alSet_present {κ α : Type} [DecidableEq κ]
    (m : List (κ × α)) (k : κ) (v' : α) (h : alGet m k ≠ none) :
    (alSet m k v').map Prod.fst = m.map Prod.fst := by
  induction m with
  | nil => simp [alGet] at h
  | cons p rest ih =>
    obtain ⟨pk, pv⟩ := p
    by_cases hpk : pk = k
    · subst hpk
      simp [alSet]
    · unfold alGet at h
      rw [if_neg hpk] at h
      simp [alSet, hpk, ih h]

theorem keys_alSet_absent {κ α : Type} [DecidableEq κ]
    (m : List (κ × α)) (k : κ) (v' : α) (h : alGet m k = none) :
    (alSet m k v').map Prod.fst = m.map Prod.fst ++ [k] := by
  induction m with
  | nil => simp [alSet]
  | cons p rest ih =>
    obtain ⟨pk, pv⟩ := p
    unfold alGet at h
    by_cases hpk : pk = k
    · rw [if_pos hpk] at h
      cases h
    · rw [if_neg hpk] at h
      simp [alSet, hpk, ih h]

/-- Counter/size coherence for the emitter: the global `listenerCount`
equals the sum of channel set sizes, and the channel keys are
duplicate-free. -/
def EmInv (s : EmitterState) : Prop :=
  s.listenerCount = sumSizes s.listeners ∧
  (s.listeners.map Prod.fst).Nodup

theorem emInv_init : EmInv initEmitter := ⟨rfl, List.nodup_nil⟩

theorem addListener_inv (s : EmitterState) (c : String) (l : Nat)
    (hnew : l ∉ (alGet s.listeners c).getD []) (h : EmInv s) :
    EmInv (addListener s c l) := by
  obtain ⟨hcount, hkeys⟩ := h
  have hstate : addListener s c l =
      { listeners :=
          alSet s.listeners c ((alGet s.listeners c).getD [] ++ [l]),
        listenerCount := s.listenerCount + 1 } := by
    simp only [addListener]
    rw [if_neg hnew]
  rw [hstate]
  cases hg : alGet s.listeners c with
  | none =>
    simp only [Option.getD_none, List.nil_append]
    constructor
    · simp only []
      rw [sumSizes_alSet_absent _ _ _ hg]
      simp only [List.length_singleton, Nat.cast_one]
      omega
    · simp only []
      rw [keys_alSet_absent _ _ _ hg]
      rw [List.nodup_append]
      refine ⟨hkeys, List.nodup_singleton _, ?_⟩
      intro a ha hb
      rw [List.mem_singleton] at hb
      subst hb
      obtain ⟨p, hp, hpa⟩ := List.mem_map.mp ha
      exact (alGet_eq_none_iff s.listeners a).mp hg p hp hpa
  | some lu =>
    simp only [Option.getD_some]
    constructor
    · simp only []
      rw [sumSizes_alSet_present _ _ lu _ hg]
      rw [List.length_append]
      simp only [List.length_singleton]
      omega
    · simp only []
      rw [keys_alSet_present _ _ _ (by rw [hg]; simp)]
      exact hkeys

theorem removeListener_inv (s : EmitterState) (c : String) (l : Nat)
    (h : EmInv s) : EmInv (removeListener s c l).2 := by
  obtain ⟨hcount, hkeys⟩ := h
  unfold removeListener
  cases hg : alGet s.listeners c with
  | none => exact ⟨hcount, hkeys⟩
  | some lu =>
    simp only []
    by_cases hl : l ∈ lu
    · rw [if_pos hl]
      simp only []
      have hlen : (lu.erase l).length = lu.length - 1 :=
        List.length_erase_of_mem hl
      have hlupos : 0 < lu.length :=
        List.length_pos.mpr (List.ne_nil_of_mem hl)
      by_cases hemp : (lu.erase l).isEmpty
      · rw [if_pos hemp]
        have hzero : (lu.erase l).length = 0 := by
          rw [List.isEmpty_iff.mp hemp]
          rfl
        constructor
        · simp only []
          rw [sumSizes_alRemove _ _ lu hg hkeys]
          omega
        · simp only []
          exact hkeys.sublist (List.Sublist.map _ (List.filter_sublist _))
      · rw [if_neg hemp]
        constructor
        · simp only []
          rw [sumSizes_alSet_present _ _ lu _ hg]
          omega
        · simp only []
          rw [keys_alSet_present _ _ _ (by rw [hg]; simp)]
          exact hkeys
    · rw [if_neg hl]
      exact ⟨hcount, hkeys⟩

theorem removeAllListeners_inv (s : EmitterState) (c : Option String)
    (h : EmInv s) : EmInv (removeAllListeners s c) := by
  obtain ⟨hcount, hkeys⟩ := h
  cases c with
  | none => exact ⟨rfl, List.nodup_nil⟩
  | some ch =>
    unfold removeAllListeners
    simp only []
    cases hg : alGet s.listeners ch with
    | none => exact ⟨hcount, hkeys⟩
    | some lu =>
      simp only []
      constructor
      · simp only []
        rw [sumSizes_alRemove _ _ lu hg hkeys]
        omega
      · simp only []
        exact hkeys.sublist (List.Sublist.map _ (List.filter_sublist _))

theorem applyEmOps_inv (ops : List EmOp) :
    ∀ s : EmitterState, EmInv s → dupFreeTrace s ops = true →
      EmInv (applyEmOps ops s) := by
  induction ops with
  | nil =>
    intro s hinv _
    exact hinv
  | cons op rest ih =>
    intro s hinv htrace
    unfold dupFreeTrace at htrace
    rw [Bool.and_eq_true] at htrace
    obtain ⟨hop, hrest⟩ := htrace
    have hstep : EmInv (applyEmOp s op) := by
      cases op with
      | addL c l =>
        apply addListener_inv s c l ?_ hinv
        simp only [] at hop
        simpa using hop
      | removeL c l => exact removeListener_inv s c l hinv
      | removeAll c => exact removeAllListeners_inv s c hinv
    exact ih (applyEmOp s op) hstep hrest

/-- C10 counterexample: adding the same listener function twice to the
same channel increments the global `listenerCount` twice while the `Set`
keeps a single element, so after the trace
`[addListener("sse", f), addListener("sse", f)]` the global
`getListenerCount()` is 2 but the sum of channel set sizes is 1. -/
theorem listener_count_dup_add_cex :
    getListenerCount
        (applyEmOps [EmOp.addL "sse" 5, EmOp.addL "sse" 5] initEmitter)
        none ≠
      sumChannelSizes
        (applyEmOps [EmOp.addL "sse" 5, EmOp.addL "sse" 5] initEmitter) := by
  decide

/-- C10 amended: for every finite sequence of `addListener`,
`removeListener` and `removeAllListeners` calls in which no `addListener`
call re-registers a listener already present on that channel, the global
`getListenerCount()` equals the sum over all channels of the channel's
listener-set size.  (With a duplicate add the counter overcounts, as the
counterexample shows.) -/
theorem listener_count_sum_amended (ops : List EmOp)
    (h : dupFreeTrace initEmitter ops = true) :
    getListenerCount (applyEmOps ops initEmitter) none =
      sumChannelSizes (applyEmOps ops initEmitter) :=
  (applyEmOps_inv ops initEmitter emInv_init h).1

theorem listener_count_sum_amended_witness :
    getListenerCount
        (applyEmOps [EmOp.addL "sse" 1, EmOp.addL "sse" 2,
          EmOp.removeL "sse" 1] initEmitter) none =
      sumChannelSizes
        (applyEmOps [EmOp.addL "sse" 1, EmOp.addL "sse" 2,
          EmOp.removeL "sse" 1] initEmitter) :=
  listener_count_sum_amended
    [EmOp.addL "sse" 1, EmOp.addL "sse" 2, EmOp.removeL "sse" 1] (by decide)

end PDRAIM
